/-
Verification of the perturbation-sampling / neighborhood-construction core of
`lime_image.py` (LimeImageExplainer and ImageExplanation).

The Python source is shallowly embedded: images are flat lists of pixels
(one entry per grid cell; the spatial layout is irrelevant to every property
proved here because all operations are pixelwise given the segmentation map),
machine floats on the normalized-tensor path are modelled as exact rationals,
and numpy's `RandomState` is modelled as an abstract deterministic generator
`gen : ℕ → ℕ → ℕ` (seed, draw position ↦ raw draw) threaded explicitly.
-/
import Mathlib

set_option autoImplicit false

namespace LimeImage

/-- State of a numpy `RandomState`: a seed and the number of draws made so
far.  (`check_random_state(seed)` with an integer seed yields `RandomState(seed)`,
whose draw sequence is a pure function of the seed.) -/
structure RandState where
  seed : ℕ
  pos : ℕ
deriving DecidableEq, Repr

/-- Models `random_state.randint(lo, hi)`: one draw, uniform over `[lo, hi)`.
The value of draw number `pos` under seed `seed` is `gen seed pos`, reduced
into the requested range. -/
def randint (gen : ℕ → ℕ → ℕ) (lo hi : ℕ) (g : RandState) : ℕ × RandState :=
  (lo + gen g.seed g.pos % (hi - lo), ⟨g.seed, g.pos + 1⟩)

/-- Models `random_state.randint(0, 2, n)`: the flat vector of `n` binary draws
(`data_labels` line 255 draws `num_samples * n_features` of them). -/
def drawFlat (gen : ℕ → ℕ → ℕ) : ℕ → RandState → List ℕ × RandState
  | 0, g => ([], g)
  | n + 1, g =>
    let vg := randint gen 0 2 g
    let rest := drawFlat gen n vg.2
    (vg.1 :: rest.1, rest.2)

/-- Models `.reshape((num_samples, n_features))` of a row-major flat vector. -/
def reshapeRows (nf : ℕ) : ℕ → List ℕ → List (List ℕ)
  | 0, _ => []
  | n + 1, flat => flat.take nf :: reshapeRows nf n (flat.drop nf)

/-- Models `data[0, :] = 1` (line 259): overwrite row 0 with all ones. -/
def setRow0 (nf : ℕ) : List (List ℕ) → List (List ℕ)
  | [] => []
  | _ :: rest => List.replicate nf 1 :: rest

/-- Lines 254–259 of `data_labels`: draw a `num_samples × nf` binary matrix
from the explicit random state, then force row 0 to all ones. -/
def sampleMatrix (gen : ℕ → ℕ → ℕ) (numSamples nf : ℕ) (g : RandState) :
    List (List ℕ) × RandState :=
  let flat := drawFlat gen (numSamples * nf) g
  (setRow0 nf (reshapeRows nf numSamples flat.1), flat.2)

/-- Models `n_features = np.unique(segments).shape[0]` (line 254): the number of
distinct superpixel IDs in the segmentation map. -/
def nFeatures (segments : List ℤ) : ℕ :=
  segments.dedup.length

/-- The perturbation matrix produced by `data_labels` for a given
segmentation map. -/
def dataLabelsData (gen : ℕ → ℕ → ℕ) (segments : List ℤ) (numSamples : ℕ)
    (g : RandState) : List (List ℕ) × RandState :=
  sampleMatrix gen numSamples (nFeatures segments) g

/-- A pixel of the 3-channel integer image (numpy `uint8`-valued channels are
embedded as unbounded integers; none of the verified operations overflow). -/
structure RGB where
  r : ℤ
  g : ℤ
  b : ℤ
deriving DecidableEq, Repr

/-- A pixel of the normalized pytorch tensor image (float channels embedded
as exact rationals). -/
structure QRGB where
  r : ℚ
  g : ℚ
  b : ℚ
deriving DecidableEq, Repr

/-- Models `np.where(row == 0)[0]`: the ascending list of column indices whose entry
is zero (line 265). -/
def npWhere0 (row : List ℕ) : List ℕ :=
  (List.range row.length).filter (fun j => row.getD j 1 = 0)

/-- Models `mask[segments == z] = True` (line 268): set the boolean mask at every
pixel whose superpixel ID equals `z`. -/
def maskSet (segments : List ℤ) (m : List Bool) (z : ℤ) : List Bool :=
  List.zipWith (fun s b => if s = z then true else b) segments m

/-- Lines 265–268 of `data_labels`: the boolean occlusion mask of one
perturbation row — start all-False, then mark the pixels of every superpixel
whose column is zeroed in the row. -/
def rowMask (segments : List ℤ) (row : List ℕ) : List Bool :=
  (npWhere0 row).foldl (fun (m : List Bool) (z : ℕ) => maskSet segments m (z : ℤ))
    (List.replicate segments.length false)

/-- Constant-fill rendering (`f_type == 'LIME'`, line 272):
`temp[mask] = fudged_image[mask]`, i.e. each masked pixel comes from the
fudged image and every other pixel keeps the original value. -/
def renderLIME (image fudged : List RGB) (segments : List ℤ) (row : List ℕ) :
    List RGB :=
  List.zipWith3 (fun msk fu im => if msk then fu else im)
    (rowMask segments row) fudged image

/-- The per-pixel keep mask of `f_type == 'LIMEG'` (line 275):
`1 - mask` as a float, broadcast identically over the three channels
(1 = keep the original pixel, 0 = occluded). -/
def keepMask (segments : List ℤ) (row : List ℕ) : List ℚ :=
  (rowMask segments row).map (fun msk => 1 - (if msk then (1 : ℚ) else 0))

/-- The compositing of line 295:
`pytorch_img * temp_mask + inpaint_img * (1 - temp_mask)`, per pixel and per
channel with the same mask value on all three channels. -/
def composite (pytorch inpainted : List QRGB) (keep : List ℚ) : List QRGB :=
  List.zipWith3
    (fun (p i : QRGB) (k : ℚ) =>
      QRGB.mk (p.r * k + i.r * (1 - k)) (p.g * k + i.g * (1 - k))
        (p.b * k + i.b * (1 - k)))
    pytorch inpainted keep

/-- Models `unnormalize` (lines 220–227) on one pixel: per-channel `x * std + mean`
with means `[0.485, 0.456, 0.406]` and stds `[0.229, 0.224, 0.225]`. -/
def unnormalizePix (p : QRGB) : QRGB :=
  QRGB.mk (p.r * (229 / 1000) + 485 / 1000) (p.g * (224 / 1000) + 456 / 1000)
    (p.b * (225 / 1000) + 406 / 1000)

/-- Models `np.uint8` applied to a float value: truncate toward zero (C-cast
semantics) and reduce modulo 256. -/
def npUint8 (q : ℚ) : ℤ :=
  (if q < 0 then -⌊-q⌋ else ⌊q⌋) % 256

/-- Line 296 on one pixel: `np.uint8(255 * unnormalize(x))`. -/
def postprocessPix (p : QRGB) : RGB :=
  RGB.mk (npUint8 (255 * (unnormalizePix p).r))
    (npUint8 (255 * (unnormalizePix p).g))
    (npUint8 (255 * (unnormalizePix p).b))

/-- The LIMEG conversion of a composited normalized tensor back to an
integer image (line 296; the axis moves of lines 296–297 only restore the
pixel order, which the flat-pixel embedding keeps fixed). -/
def postprocess (img : List QRGB) : List RGB :=
  img.map postprocessPix

/-- Inpainting-mode rendering of one perturbation row
(`f_type == 'LIMEG'`, lines 275 and 294–297): composite the normalized
pytorch image with the inpainting model's output under the row's keep mask,
then unnormalize and convert back to integer pixels.  `inpainted` is the
(deterministic) inpainting model's output for this row's stacked mask. -/
def renderLIMEG (pytorch inpainted : List QRGB) (segments : List ℤ)
    (row : List ℕ) : List RGB :=
  postprocess (composite pytorch inpainted (keepMask segments row))

/-- Models `np.max(image)` (line 80): the maximum channel value over the whole
image (0 for the empty image, which numpy rejects). -/
def imgMax (image : List RGB) : ℤ :=
  ((image.map (fun p => max p.r (max p.g p.b))).max?).getD 0

/-- Models `temp[segments == f, c] = v` on one pixel: overwrite channel `c`. -/
def setChan (p : RGB) (c : ℕ) (v : ℤ) : RGB :=
  if c = 0 then RGB.mk v p.g p.b
  else if c = 1 then RGB.mk p.r v p.b
  else RGB.mk p.r p.g v

/-- One iteration of the `positive_only=False` loop of `get_image_and_mask`
(lines 74–84), acting on the `(temp, mask)` pair: skip when
`|w| < min_weight`; otherwise repaint the superpixel's pixels from the
original image with channel `0 if w < 0 else 1` saturated to `np.max(image)`,
and write `1 if w < 0 else 2` into the mask there. -/
def giamStep (image : List RGB) (segments : List ℤ) (minWeight : ℚ)
    (tm : List RGB × List ℕ) (fw : ℤ × ℚ) : List RGB × List ℕ :=
  if |fw.2| < minWeight then tm
  else
    let c : ℕ := if fw.2 < 0 then 0 else 1
    let mv : ℕ := if fw.2 < 0 then 1 else 2
    (List.zipWith3
       (fun (s : ℤ) (im t : RGB) => if s = fw.1 then setChan im c (imgMax image) else t)
       segments image tm.1,
     List.zipWith (fun (s : ℤ) (m : ℕ) => if s = fw.1 then mv else m) segments tm.2)

/-- The initial `temp` of `get_image_and_mask` (lines 62–65): a zero image
when `hide_rest`, otherwise a copy of the original. -/
def giamBase (image : List RGB) (hideRest : Bool) : List RGB :=
  if hideRest then List.replicate image.length (RGB.mk 0 0 0) else image

/-- The `positive_only=False` branch of `get_image_and_mask` (lines 73–85):
fold the loop body over the first `num_features` entries of the explanation,
starting from the base image and the all-zero mask. -/
def getImageAndMaskNeg (image : List RGB) (segments : List ℤ)
    (exp : List (ℤ × ℚ)) (numFeatures : ℕ) (minWeight : ℚ) (hideRest : Bool) :
    List RGB × List ℕ :=
  (exp.take numFeatures).foldl (giamStep image segments minWeight)
    (giamBase image hideRest, List.replicate segments.length 0)

/-- The selection of the `positive_only=True` branch (lines 67–68):
`[x for x in exp if x[1] > 0 and x[1] > min_weight][:num_features]`
(kept as pairs; the code projects to the feature IDs). -/
def positiveSelection (exp : List (ℤ × ℚ)) (numFeatures : ℕ) (minWeight : ℚ) :
    List (ℤ × ℚ) :=
  (exp.filter (fun fw => decide (0 < fw.2) && decide (minWeight < fw.2))).take
    numFeatures

/-- The `positive_only=True` branch of `get_image_and_mask` (lines 66–72):
for each selected feature, repaint the superpixel's pixels from the original
image and mark them `1` in the mask. -/
def getImageAndMaskPos (image : List RGB) (segments : List ℤ)
    (exp : List (ℤ × ℚ)) (numFeatures : ℕ) (minWeight : ℚ) (hideRest : Bool) :
    List RGB × List ℕ :=
  ((positiveSelection exp numFeatures minWeight).map Prod.fst).foldl
    (fun (tm : List RGB × List ℕ) (f : ℤ) =>
      (List.zipWith3 (fun (s : ℤ) (im t : RGB) => if s = f then im else t)
         segments image tm.1,
       List.zipWith (fun (s : ℤ) (m : ℕ) => if s = f then 1 else m) segments
         tm.2))
    (giamBase image hideRest, List.replicate segments.length 0)

/-- The spec's error kinds (§7): `MissingLabelError` is the spec-level name
of the `KeyError('Label not in explanation')` raised at line 57. -/
inductive ExplError where
  | missingLabel
  | invalidSegmentation
  | shapeMismatch
deriving DecidableEq, Repr

/-- Models `ImageExplanation` (lines 22–34): the image, its segmentation map and
the per-label explanations (`local_exp`, a dict embedded as an association
list from label to weighted feature list). -/
structure ImageExplanation where
  image : List RGB
  segments : List ℤ
  localExp : List (ℕ × List (ℤ × ℚ))

/-- Models `ImageExplanation.get_image_and_mask` (lines 36–85): fail with the
missing-label error when the label has no recorded explanation (line 56),
otherwise run the branch selected by `positive_only`. -/
def getImageAndMask (e : ImageExplanation) (label : ℕ) (positiveOnly : Bool)
    (hideRest : Bool) (numFeatures : ℕ) (minWeight : ℚ) :
    Except ExplError (List RGB × List ℕ) :=
  match e.localExp.lookup label with
  | none => Except.error ExplError.missingLabel
  | some exp =>
    if positiveOnly then
      Except.ok (getImageAndMaskPos e.image e.segments exp numFeatures minWeight hideRest)
    else
      Except.ok (getImageAndMaskNeg e.image e.segments exp numFeatures minWeight hideRest)

/-- The default similarity kernel (lines 118–120):
`np.sqrt(np.exp(-(d ** 2) / kernel_width ** 2))`. -/
noncomputable def kernel (d kernelWidth : ℝ) : ℝ :=
  Real.sqrt (Real.exp (-(d ^ 2) / kernelWidth ^ 2))

/-- Dot product of two vectors, the building block of sklearn's cosine
distance. -/
noncomputable def dotR (u v : List ℝ) : ℝ :=
  (List.zipWith (fun a b => a * b) u v).sum

/-- sklearn's cosine distance: `1 - ⟨u,v⟩ / (‖u‖ ‖v‖)`. -/
noncomputable def cosineDistance (u v : List ℝ) : ℝ :=
  1 - dotR u v / (Real.sqrt (dotR u u) * Real.sqrt (dotR v v))

/-- A binary perturbation row viewed as a real vector. -/
def toRealRow (row : List ℕ) : List ℝ :=
  row.map (fun x => (Nat.cast x : ℝ))

/-- Lines 199–203 of `explain_instance`:
`pairwise_distances(data, data[0].reshape(1, -1), metric='cosine').ravel()` —
the vector of cosine distances of every row of the perturbation matrix to
row 0. -/
noncomputable def distanceVector (data : List (List ℕ)) : List ℝ :=
  match data with
  | [] => []
  | d0 :: rest =>
    (d0 :: rest).map (fun r => cosineDistance (toRealRow r) (toRealRow d0))

/-- Models `check_random_state(seed)` for an integer seed: a fresh `RandomState`
positioned at its first draw. -/
def initialState (seed : ℕ) : RandState :=
  ⟨seed, 0⟩

/-- The random draws of one `explain_instance` run (lines 173–174 and
254–259): first the segmentation seed `randint(0, high=1000)`, then the
perturbation matrix, both from the explainer's own `self.random_state`.
`globalState` models numpy's implicit global generator; the source never
consults it, so it is threaded but unused — the theorem for the
reproducibility claim is exactly that the result does not depend on it. -/
def explainSampling (gen : ℕ → ℕ → ℕ) (segments : List ℤ) (numSamples : ℕ)
    (explicitState globalState : RandState) : ℕ × List (List ℕ) :=
  let sg := randint gen 0 1000 explicitState
  let dg := dataLabelsData gen segments numSamples sg.2
  (sg.1, dg.1)

/-- One batched-classifier flush: the classifier interface (spec §6, and the
`data_labels` docstring) maps a batch to the matrix whose row `i` is the
prediction for image `i`, i.e. it acts pointwise on the batch. `clf` is the
per-image prediction function and a batch call is `imgs.map clf`. -/
def flushBatch (clf : List RGB → List ℚ) (imgs : List (List RGB)) :
    List (List ℚ) :=
  imgs.map clf

/-- The prediction loop of `data_labels` in constant-fill mode
(`f_type == 'LIME'`, lines 263–319): render each row, accumulate the
rendered images, call the classifier once per full batch
(`len(imgs) == batch_size`, line 292) and once on the final partial batch
(lines 317–319).  The single-image diagnostic classifier call of line 281
does not touch `labels` and is omitted. -/
def driveLIME (clf : List RGB → List ℚ) (image fudged : List RGB)
    (segments : List ℤ) (batchSize : ℕ) :
    List (List ℕ) → List (List RGB) → List (List ℚ)
  | [], imgs => if imgs.isEmpty then [] else flushBatch clf imgs
  | row :: rows, imgs =>
    let imgs' := imgs ++ [renderLIME image fudged segments row]
    if imgs'.length = batchSize then
      flushBatch clf imgs' ++ driveLIME clf image fudged segments batchSize rows []
    else
      driveLIME clf image fudged segments batchSize rows imgs'

/-- The inpainting-mode flush (lines 293–311): for each stacked keep mask of
the batch, composite the pytorch image with the (deterministic, per-mask)
inpainting model's output, postprocess, and classify.  The per-member
diagnostic classifier calls (lines 300–307) do not touch `labels`. -/
def flushLIMEG (clf : List RGB → List ℚ) (pytorch : List QRGB)
    (inpaintFn : List ℚ → List QRGB) (masks : List (List ℚ)) :
    List (List ℚ) :=
  masks.map (fun m => clf (postprocess (composite pytorch (inpaintFn m) m)))

/-- The prediction loop of `data_labels` in inpainting mode
(`f_type == 'LIMEG'`, lines 263–319).  Each row appends the *unmodified*
copy `temp` of the original image to `imgs` (the constant-fill substitution
of line 272 is skipped) and the row's keep mask to `temp_mask`; a full batch
is classified through the inpainting pipeline (lines 293–311) and both
accumulators are reset; but the final partial batch (lines 317–319) is
classified directly on the accumulated raw images, bypassing inpainting. -/
def driveLIMEG (clf : List RGB → List ℚ) (image : List RGB)
    (pytorch : List QRGB) (inpaintFn : List ℚ → List QRGB)
    (segments : List ℤ) (batchSize : ℕ) :
    List (List ℕ) → List (List ℚ) → List (List RGB) → List (List ℚ)
  | [], _, imgs => if imgs.isEmpty then [] else flushBatch clf imgs
  | row :: rows, masks, imgs =>
    let imgs' := imgs ++ [image]
    let masks' := masks ++ [keepMask segments row]
    if imgs'.length = batchSize then
      flushLIMEG clf pytorch inpaintFn masks' ++
        driveLIMEG clf image pytorch inpaintFn segments batchSize rows [] []
    else
      driveLIMEG clf image pytorch inpaintFn segments batchSize rows masks' imgs'

/-- The last entry of the (first `num_features` of the) explanation list
that is not skipped by the `min_weight` test and covers superpixel `s` —
in the `positive_only=False` loop the last such writer determines the final
pixel and mask values of `s`. -/
def lastHit (l : List (ℤ × ℚ)) (minWeight : ℚ) (s : ℤ) : Option (ℤ × ℚ) :=
  (l.filter (fun fw => !decide (|fw.2| < minWeight) && decide (fw.1 = s))).getLast?

/-- Concrete one-pixel classifier for the batching counterexample: predict
the red channel of the first pixel. -/
def clfC : List RGB → List ℚ :=
  fun px => [((px.getD 0 (RGB.mk 0 0 0)).r : ℚ)]

/-- Concrete one-pixel image for the batching counterexample. -/
def imgC : List RGB :=
  [RGB.mk 7 7 7]

/-- Concrete normalized pytorch image for the batching counterexample. -/
def pytC : List QRGB :=
  [QRGB.mk 0 0 0]

/-- Concrete deterministic inpainting model for the batching
counterexample. -/
def inpC : List ℚ → List QRGB :=
  fun _ => [QRGB.mk 0 0 0]

/-- C7: the default similarity kernel computes exactly
`sqrt(exp(-(d/kernel_width)^2))` for every distance and positive kernel
width — `-(d^2)/kw^2` and `-((d/kw)^2)` coincide. -/
theorem kernel_eq_sqrt_exp_ratio (d kw : ℝ) (hkw : 0 < kw) :
    kernel d kw = Real.sqrt (Real.exp (-(d / kw) ^ 2)) := by
  unfold kernel
  rw [div_pow, neg_div]

/-- Witness for C7 at `d = 1`, `kernel_width = 1`. -/
theorem kernel_eq_sqrt_exp_ratio_witness :
    (0 : ℝ) < 1 ∧ kernel 1 1 = Real.sqrt (Real.exp (-((1 : ℝ) / 1) ^ 2)) :=
  ⟨by norm_num, kernel_eq_sqrt_exp_ratio 1 1 (by norm_num)⟩

/-- C9: two `explain_instance` runs whose `random_state` is initialized from
the same seed draw the same segmentation seed and produce identical
perturbation matrices, whatever the state of the implicit global generator:
every draw comes from the explicitly threaded state. -/
theorem explainSampling_seed_deterministic (gen : ℕ → ℕ → ℕ)
    (segments : List ℤ) (numSamples seed : ℕ) (globalA globalB : RandState) :
    explainSampling gen segments numSamples (initialState seed) globalA =
      explainSampling gen segments numSamples (initialState seed) globalB :=
  rfl

/-- C6: requesting a label with no recorded explanation fails with the
missing-label error (the spec's `MissingLabelError`), never with a result or
another error. -/
theorem getImageAndMask_missing_label_error (e : ImageExplanation) (label : ℕ)
    (positiveOnly hideRest : Bool) (numFeatures : ℕ) (minWeight : ℚ)
    (h : e.localExp.lookup label = none) :
    getImageAndMask e label positiveOnly hideRest numFeatures minWeight =
      Except.error ExplError.missingLabel := by
  unfold getImageAndMask
  rw [h]

/-- Witness for C6: an explanation object with no fitted labels. -/
theorem getImageAndMask_missing_label_error_witness :
    (ImageExplanation.mk [] [] []).localExp.lookup 3 = none ∧
      getImageAndMask (ImageExplanation.mk [] [] []) 3 true false 5 0 =
        Except.error ExplError.missingLabel :=
  ⟨rfl, getImageAndMask_missing_label_error (ImageExplanation.mk [] [] []) 3
    true false 5 0 rfl⟩

/-- C5: the `positive_only=True` selection keeps at most `num_features`
entries, every kept entry's weight is positive and strictly exceeds
`min_weight`, and the kept entries form a sublist of the explanation (they
appear in the explanation list's order). -/
theorem positiveSelection_bounded_positive_ordered (exp : List (ℤ × ℚ))
    (numFeatures : ℕ) (minWeight : ℚ) :
    (positiveSelection exp numFeatures minWeight).length ≤ numFeatures ∧
      (∀ fw ∈ positiveSelection exp numFeatures minWeight,
        0 < fw.2 ∧ minWeight < fw.2) ∧
      (positiveSelection exp numFeatures minWeight).Sublist exp := by
  refine ⟨List.length_take_le _ _, ?_, ?_⟩
  · intro fw hfw
    have hmem := List.mem_of_mem_take hfw
    have := (List.mem_filter.mp hmem).2
    simp only [Bool.and_eq_true, decide_eq_true_eq] at this
    exact this
  · exact (List.take_sublist _ _).trans (List.filter_sublist _)

theorem drawFlat_length (gen : ℕ → ℕ → ℕ) :
    ∀ (n : ℕ) (g : RandState), (drawFlat gen n g).1.length = n := by
  intro n
  induction n with
  | zero => intro g; rfl
  | succ n ih =>
    intro g
    simp only [drawFlat, List.length_cons, ih]

theorem drawFlat_mem_le_one (gen : ℕ → ℕ → ℕ) :
    ∀ (n : ℕ) (g : RandState) (x : ℕ), x ∈ (drawFlat gen n g).1 → x ≤ 1 := by
  intro n
  induction n with
  | zero => intro g x hx; exact absurd hx (List.not_mem_nil x)
  | succ n ih =>
    intro g x hx
    simp only [drawFlat, List.mem_cons] at hx
    rcases hx with hx | hx
    · subst hx
      have : gen g.seed g.pos % 2 < 2 := Nat.mod_lt _ (by norm_num)
      simp only [randint, Nat.zero_add]
      omega
    · exact ih _ _ hx

theorem reshapeRows_length (nf : ℕ) :
    ∀ (n : ℕ) (flat : List ℕ), (reshapeRows nf n flat).length = n := by
  intro n
  induction n with
  | zero => intro flat; rfl
  | succ n ih => intro flat; simp only [reshapeRows, List.length_cons, ih]

theorem reshapeRows_row_length (nf : ℕ) :
    ∀ (n : ℕ) (flat : List ℕ), flat.length = n * nf →
      ∀ row ∈ reshapeRows nf n flat, row.length = nf := by
  intro n
  induction n with
  | zero => intro flat _ row hrow; exact absurd hrow (List.not_mem_nil row)
  | succ n ih =>
    intro flat hflat row hrow
    simp only [reshapeRows, List.mem_cons] at hrow
    rcases hrow with hrow | hrow
    · subst hrow
      have : nf ≤ flat.length := by
        rw [hflat, Nat.succ_mul]; omega
      simp [List.length_take, Nat.min_eq_left this]
    · refine ih (flat.drop nf) ?_ row hrow
      rw [List.length_drop, hflat, Nat.succ_mul]
      omega

theorem reshapeRows_mem_flat (nf : ℕ) :
    ∀ (n : ℕ) (flat : List ℕ), ∀ row ∈ reshapeRows nf n flat,
      ∀ x ∈ row, x ∈ flat := by
  intro n
  induction n with
  | zero => intro flat row hrow; exact absurd hrow (List.not_mem_nil row)
  | succ n ih =>
    intro flat row hrow x hx
    simp only [reshapeRows, List.mem_cons] at hrow
    rcases hrow with hrow | hrow
    · exact List.mem_of_mem_take (hrow ▸ hx)
    · exact List.mem_of_mem_drop (ih (flat.drop nf) row hrow x hx)

theorem setRow0_length (nf : ℕ) (rows : List (List ℕ)) :
    (setRow0 nf rows).length = rows.length := by
  cases rows <;> rfl

/-- C2: for every `num_samples ≥ 1` and segmentation map, the perturbation
matrix is a `num_samples × n_features` binary matrix whose row 0 is
all-ones, with `n_features` the number of distinct superpixel IDs. -/
theorem dataLabelsData_shape_binary_row0 (gen : ℕ → ℕ → ℕ)
    (segments : List ℤ) (numSamples : ℕ) (g : RandState)
    (h : 1 ≤ numSamples) :
    ((dataLabelsData gen segments numSamples g).1.length = numSamples ∧
      ∀ row ∈ (dataLabelsData gen segments numSamples g).1,
        row.length = nFeatures segments) ∧
      (∀ row ∈ (dataLabelsData gen segments numSamples g).1,
        ∀ x ∈ row, x = 0 ∨ x = 1) ∧
      (dataLabelsData gen segments numSamples g).1.head? =
        some (List.replicate (nFeatures segments) 1) := by
  obtain ⟨n, rfl⟩ : ∃ n, numSamples = n + 1 :=
    ⟨numSamples - 1, by omega⟩
  set nf := nFeatures segments with hnf
  have hflat : (drawFlat gen ((n + 1) * nf) g).1.length = (n + 1) * nf :=
    drawFlat_length gen _ g
  have hshape :
      (dataLabelsData gen segments (n + 1) g).1 =
        List.replicate nf 1 ::
          reshapeRows nf n ((drawFlat gen ((n + 1) * nf) g).1.drop nf) := by
    simp only [dataLabelsData, sampleMatrix, reshapeRows, setRow0, ← hnf]
  refine ⟨⟨?_, ?_⟩, ?_, ?_⟩
  · rw [hshape]
    simp [reshapeRows_length]
  · intro row hrow
    rw [hshape, List.mem_cons] at hrow
    rcases hrow with hrow | hrow
    · simp [hrow]
    · refine reshapeRows_row_length nf n _ ?_ row hrow
      rw [List.length_drop, hflat, Nat.succ_mul]
      omega
  · intro row hrow x hx
    rw [hshape, List.mem_cons] at hrow
    rcases hrow with hrow | hrow
    · subst hrow
      have := List.eq_of_mem_replicate hx
      omega
    · have hmem :
          x ∈ (drawFlat gen ((n + 1) * nf) g).1.drop nf :=
        reshapeRows_mem_flat nf n _ row hrow x hx
      have := drawFlat_mem_le_one gen ((n + 1) * nf) g x
        (List.mem_of_mem_drop hmem)
      omega
  · rw [hshape]
    rfl

/-- Witness for C2 at a concrete generator, one-superpixel segmentation and
`num_samples = 1`. -/
theorem dataLabelsData_shape_binary_row0_witness :
    1 ≤ 1 ∧
      (((dataLabelsData (fun s p => s + p) [0] 1 ⟨5, 0⟩).1.length = 1 ∧
        ∀ row ∈ (dataLabelsData (fun s p => s + p) [0] 1 ⟨5, 0⟩).1,
          row.length = nFeatures [0]) ∧
        (∀ row ∈ (dataLabelsData (fun s p => s + p) [0] 1 ⟨5, 0⟩).1,
          ∀ x ∈ row, x = 0 ∨ x = 1) ∧
        (dataLabelsData (fun s p => s + p) [0] 1 ⟨5, 0⟩).1.head? =
          some (List.replicate (nFeatures [0]) 1)) :=
  ⟨le_refl 1,
    dataLabelsData_shape_binary_row0 (fun s p => s + p) [0] 1 ⟨5, 0⟩ (le_refl 1)⟩

theorem dataLabelsData_cons (gen : ℕ → ℕ → ℕ) (segments : List ℤ) (n : ℕ)
    (g : RandState) :
    (dataLabelsData gen segments (n + 1) g).1 =
      List.replicate (nFeatures segments) 1 ::
        reshapeRows (nFeatures segments) n
          ((drawFlat gen ((n + 1) * nFeatures segments) g).1.drop
            (nFeatures segments)) := by
  simp only [dataLabelsData, sampleMatrix, reshapeRows, setRow0]

theorem dotR_replicate_one (n : ℕ) :
    dotR (List.replicate n (1 : ℝ)) (List.replicate n (1 : ℝ)) = n := by
  unfold dotR
  rw [List.zipWith_replicate, mul_one, List.sum_replicate, nsmul_eq_mul,
    mul_one, min_self]

/-- C8: the distance vector computed over the sampler's perturbation matrix
has value 0 (the cosine metric's identity value) at index 0, since the
all-ones row 0 is compared with itself. -/
theorem distanceVector_head_zero (gen : ℕ → ℕ → ℕ) (segments : List ℤ)
    (numSamples : ℕ) (g : RandState) (hns : 1 ≤ numSamples)
    (hseg : segments ≠ []) :
    (distanceVector (dataLabelsData gen segments numSamples g).1).head? =
      some 0 := by
  obtain ⟨n, rfl⟩ : ∃ n, numSamples = n + 1 := ⟨numSamples - 1, by omega⟩
  rw [dataLabelsData_cons]
  have hnf : 0 < nFeatures segments := by
    simp only [nFeatures, List.length_pos, ne_eq, List.dedup_eq_nil]
    exact hseg
  have hu : toRealRow (List.replicate (nFeatures segments) 1) =
      List.replicate (nFeatures segments) (1 : ℝ) := by
    unfold toRealRow
    rw [List.map_replicate, Nat.cast_one]
  simp only [distanceVector, List.map_cons, List.head?_cons, Option.some.injEq]
  rw [hu]
  unfold cosineDistance
  rw [dotR_replicate_one]
  rw [Real.mul_self_sqrt (by positivity)]
  rw [div_self (by exact_mod_cast hnf.ne')]
  ring

/-- Witness for C8 at a concrete generator, one-superpixel segmentation and
`num_samples = 1`. -/
theorem distanceVector_head_zero_witness :
    1 ≤ 1 ∧ ([0] : List ℤ) ≠ [] ∧
      (distanceVector
        (dataLabelsData (fun s p => s + p) [0] 1 ⟨5, 0⟩).1).head? = some 0 :=
  ⟨le_refl 1, by simp,
    distanceVector_head_zero (fun s p => s + p) [0] 1 ⟨5, 0⟩ (le_refl 1)
      (by simp)⟩

theorem getD_zipWith {α β γ : Type} (f : α → β → γ) :
    ∀ (l1 : List α) (l2 : List β) (p : ℕ) (d1 : α) (d2 : β) (d3 : γ),
      p < l1.length → p < l2.length →
      (List.zipWith f l1 l2).getD p d3 = f (l1.getD p d1) (l2.getD p d2) := by
  intro l1
  induction l1 with
  | nil => intro l2 p d1 d2 d3 h1 _; exact absurd h1 (by simp)
  | cons a l1 ih =>
    intro l2 p d1 d2 d3 h1 h2
    cases l2 with
    | nil => exact absurd h2 (by simp)
    | cons b l2 =>
      cases p with
      | zero => rfl
      | succ p =>
        simp only [List.zipWith_cons_cons, List.getD_cons_succ]
        exact ih l2 p d1 d2 d3 (by simpa using h1) (by simpa using h2)

theorem getD_zipWith3 {α β γ δ : Type} (f : α → β → γ → δ) :
    ∀ (l1 : List α) (l2 : List β) (l3 : List γ) (p : ℕ)
      (d1 : α) (d2 : β) (d3 : γ) (d4 : δ),
      p < l1.length → p < l2.length → p < l3.length →
      (List.zipWith3 f l1 l2 l3).getD p d4 =
        f (l1.getD p d1) (l2.getD p d2) (l3.getD p d3) := by
  intro l1
  induction l1 with
  | nil => intro l2 l3 p d1 d2 d3 d4 h1 _ _; exact absurd h1 (by simp)
  | cons a l1 ih =>
    intro l2 l3 p d1 d2 d3 d4 h1 h2 h3
    cases l2 with
    | nil => exact absurd h2 (by simp)
    | cons b l2 =>
      cases l3 with
      | nil => exact absurd h3 (by simp)
      | cons c l3 =>
        cases p with
        | zero => rfl
        | succ p =>
          simp only [List.zipWith3, List.getD_cons_succ]
          exact ih l2 l3 p d1 d2 d3 d4 (by simpa using h1) (by simpa using h2)
            (by simpa using h3)

theorem getD_replicate_self {α : Type} (a : α) :
    ∀ (n p : ℕ), (List.replicate n a).getD p a = a := by
  intro n
  induction n with
  | zero => intro p; cases p <;> rfl
  | succ n ih =>
    intro p
    cases p with
    | zero => rfl
    | succ p => simpa [List.replicate_succ, List.getD_cons_succ] using ih p

theorem maskSet_length (segments : List ℤ) (m : List Bool) (z : ℤ)
    (hm : m.length = segments.length) :
    (maskSet segments m z).length = segments.length := by
  simp [maskSet, hm]

theorem foldl_maskSet_getD (segments : List ℤ) (p : ℕ)
    (hp : p < segments.length) :
    ∀ (zs : List ℕ) (m : List Bool), m.length = segments.length →
      ((zs.foldl (fun (m : List Bool) (z : ℕ) => maskSet segments m (z : ℤ)) m).getD p false = true ↔
        (m.getD p false = true ∨ ∃ z ∈ zs, segments.getD p 0 = (z : ℤ))) := by
  intro zs
  induction zs with
  | nil => intro m _; simp
  | cons z zs ih =>
    intro m hm
    have hstep : (maskSet segments m (z : ℤ)).getD p false =
        (if segments.getD p 0 = (z : ℤ) then true else m.getD p false) := by
      unfold maskSet
      exact getD_zipWith _ segments m p 0 false false hp (hm ▸ hp)
    rw [List.foldl_cons, ih (maskSet segments m (z : ℤ))
      (maskSet_length segments m (z : ℤ) hm), hstep]
    by_cases hz : segments.getD p 0 = (z : ℤ) <;> simp [hz] <;> tauto

theorem rowMask_length (segments : List ℤ) (row : List ℕ) :
    (rowMask segments row).length = segments.length := by
  unfold rowMask
  generalize npWhere0 row = zs
  have : ∀ (zs : List ℕ) (m : List Bool), m.length = segments.length →
      (zs.foldl (fun (m : List Bool) (z : ℕ) => maskSet segments m (z : ℤ)) m).length =
        segments.length := by
    intro zs
    induction zs with
    | nil => intro m hm; exact hm
    | cons z zs ih =>
      intro m hm
      exact ih _ (maskSet_length segments m (z : ℤ) hm)
  exact this zs _ (by simp)

theorem mem_npWhere0 (row : List ℕ) (j : ℕ) :
    j ∈ npWhere0 row ↔ j < row.length ∧ row.getD j 1 = 0 := by
  unfold npWhere0
  simp [List.mem_filter, List.mem_range]

theorem rowMask_getD_iff (segments : List ℤ) (row : List ℕ) (p : ℕ)
    (hp : p < segments.length) :
    ((rowMask segments row).getD p false = true ↔
      ∃ j, j < row.length ∧ row.getD j 1 = 0 ∧ segments.getD p 0 = (j : ℤ)) := by
  unfold rowMask
  rw [foldl_maskSet_getD segments p hp (npWhere0 row) _ (by simp)]
  rw [getD_replicate_self]
  simp only [Bool.false_eq_true, false_or]
  constructor
  · rintro ⟨z, hz, hzeq⟩
    obtain ⟨hlt, hzero⟩ := (mem_npWhere0 row z).mp hz
    exact ⟨z, hlt, hzero, hzeq⟩
  · rintro ⟨j, hlt, hzero, hjeq⟩
    exact ⟨j, (mem_npWhere0 row j).mpr ⟨hlt, hzero⟩, hjeq⟩

theorem renderLIME_getD (image fudged : List RGB) (segments : List ℤ)
    (row : List ℕ) (p : ℕ) (hp : p < segments.length)
    (him : image.length = segments.length)
    (hfu : fudged.length = segments.length) :
    (renderLIME image fudged segments row).getD p (RGB.mk 0 0 0) =
      if (rowMask segments row).getD p false then
        fudged.getD p (RGB.mk 0 0 0)
      else image.getD p (RGB.mk 0 0 0) := by
  unfold renderLIME
  exact getD_zipWith3 _ (rowMask segments row) fudged image p false
    (RGB.mk 0 0 0) (RGB.mk 0 0 0) (RGB.mk 0 0 0)
    (by rw [rowMask_length]; exact hp) (hfu ▸ hp) (him ▸ hp)

/-- C10: in constant-fill mode the occlusion mask of a perturbation row is
true at a pixel exactly when the pixel's superpixel ID equals some column
index `j < n_features` whose entry in the row is 0; the renderer replaces
exactly the masked pixels by the fudged image; and a pixel whose ID lies
outside `0 .. n_features - 1` is never occluded by any row. -/
theorem rowMask_occlusion_characterization (image fudged : List RGB)
    (segments : List ℤ) (row : List ℕ) (p : ℕ) (hp : p < segments.length)
    (him : image.length = segments.length)
    (hfu : fudged.length = segments.length) :
    ((rowMask segments row).getD p false = true ↔
      ∃ j, j < row.length ∧ row.getD j 1 = 0 ∧ segments.getD p 0 = (j : ℤ)) ∧
      ((renderLIME image fudged segments row).getD p (RGB.mk 0 0 0) =
        if (rowMask segments row).getD p false then
          fudged.getD p (RGB.mk 0 0 0)
        else image.getD p (RGB.mk 0 0 0)) ∧
      (segments.getD p 0 < 0 ∨ (row.length : ℤ) ≤ segments.getD p 0 →
        (rowMask segments row).getD p false = false) := by
  refine ⟨rowMask_getD_iff segments row p hp,
    renderLIME_getD image fudged segments row p hp him hfu, ?_⟩
  intro hout
  by_contra hmask
  rw [Bool.not_eq_false] at hmask
  obtain ⟨j, hj, _, hjeq⟩ := (rowMask_getD_iff segments row p hp).mp hmask
  rcases hout with hneg | hge
  · rw [hjeq] at hneg
    omega
  · rw [hjeq] at hge
    omega

/-- Witness for C10 at a concrete two-pixel image whose second superpixel ID
(7) lies outside the column range of the row. -/
theorem rowMask_occlusion_characterization_witness :
    0 < ([0, 7] : List ℤ).length ∧
      [RGB.mk 1 1 1, RGB.mk 2 2 2].length = ([0, 7] : List ℤ).length ∧
      [RGB.mk 9 9 9, RGB.mk 8 8 8].length = ([0, 7] : List ℤ).length ∧
      (((rowMask [0, 7] [0]).getD 0 false = true ↔
        ∃ j, j < ([0] : List ℕ).length ∧ ([0] : List ℕ).getD j 1 = 0 ∧
          ([0, 7] : List ℤ).getD 0 0 = (j : ℤ)) ∧
        ((renderLIME [RGB.mk 1 1 1, RGB.mk 2 2 2] [RGB.mk 9 9 9, RGB.mk 8 8 8]
            [0, 7] [0]).getD 0 (RGB.mk 0 0 0) =
          if (rowMask [0, 7] [0]).getD 0 false then
            ([RGB.mk 9 9 9, RGB.mk 8 8 8] : List RGB).getD 0 (RGB.mk 0 0 0)
          else ([RGB.mk 1 1 1, RGB.mk 2 2 2] : List RGB).getD 0 (RGB.mk 0 0 0)) ∧
        (([0, 7] : List ℤ).getD 0 0 < 0 ∨
            ((([0] : List ℕ).length : ℤ) ≤ ([0, 7] : List ℤ).getD 0 0) →
          (rowMask [0, 7] [0]).getD 0 false = false)) :=
  ⟨by decide, by decide, by decide,
    rowMask_occlusion_characterization [RGB.mk 1 1 1, RGB.mk 2 2 2]
      [RGB.mk 9 9 9, RGB.mk 8 8 8] [0, 7] [0] 0 (by decide) (by decide)
      (by decide)⟩

theorem npWhere0_replicate_one (nf : ℕ) :
    npWhere0 (List.replicate nf 1) = [] := by
  unfold npWhere0
  rw [List.filter_eq_nil]
  intro j hj
  rw [List.length_replicate] at hj
  simp only [decide_eq_true_eq]
  rw [List.mem_range] at hj
  have : (List.replicate nf 1).getD j 1 = 1 := getD_replicate_self 1 nf j
  omega

theorem rowMask_all_ones (segments : List ℤ) (nf : ℕ) :
    rowMask segments (List.replicate nf 1) =
      List.replicate segments.length false := by
  unfold rowMask
  rw [npWhere0_replicate_one]
  rfl

theorem zipWith3_false_mask :
    ∀ (n : ℕ) (fudged image : List RGB), fudged.length = n → image.length = n →
      List.zipWith3 (fun msk fu im => if msk then fu else im)
        (List.replicate n false) fudged image = image := by
  intro n
  induction n with
  | zero =>
    intro fudged image _ himage
    rw [List.length_eq_zero.mp himage]
    cases fudged <;> rfl
  | succ n ih =>
    intro fudged image hfudged himage
    cases fudged with
    | nil => simp at hfudged
    | cons fu fudged =>
      cases image with
      | nil => simp at himage
      | cons im image =>
        simp only [List.replicate_succ, List.zipWith3, if_neg Bool.false_ne_true]
        rw [ih fudged image (by simpa using hfudged) (by simpa using himage)]

theorem composite_all_keep :
    ∀ (n : ℕ) (pytorch inpainted : List QRGB),
      pytorch.length = n → inpainted.length = n →
      composite pytorch inpainted (List.replicate n 1) = pytorch := by
  intro n
  induction n with
  | zero =>
    intro pytorch inpainted hpy _
    rw [List.length_eq_zero.mp hpy]
    rfl
  | succ n ih =>
    intro pytorch inpainted hpy hin
    cases pytorch with
    | nil => simp at hpy
    | cons p pytorch =>
      cases inpainted with
      | nil => simp at hin
      | cons i inpainted
      => simp only [composite, List.replicate_succ, List.zipWith3]
         have hhead : QRGB.mk (p.r * 1 + i.r * (1 - 1)) (p.g * 1 + i.g * (1 - 1))
             (p.b * 1 + i.b * (1 - 1)) = p := by
           obtain ⟨pr, pg, pb⟩ := p
           simp only [QRGB.mk.injEq]
           refine ⟨by ring, by ring, by ring⟩
         rw [hhead]
         have := ih pytorch inpainted (by simpa using hpy) (by simpa using hin)
         simp only [composite] at this
         rw [this]

theorem npUint8_eq (q : ℚ) (z : ℤ) (h0 : 0 ≤ q) (h1 : (z : ℚ) ≤ q)
    (h2 : q < (z : ℚ) + 1) (h3 : 0 ≤ z) (h4 : z < 256) : npUint8 q = z := by
  unfold npUint8
  rw [if_neg (not_lt.mpr h0)]
  have hfl : ⌊q⌋ = z := Int.floor_eq_iff.mpr ⟨h1, by exact_mod_cast h2⟩
  rw [hfl]
  exact Int.emod_eq_of_lt h3 h4

theorem postprocessPix_zero :
    postprocessPix (QRGB.mk 0 0 0) = RGB.mk 123 116 103 := by
  unfold postprocessPix unnormalizePix
  simp only [QRGB.mk.injEq, RGB.mk.injEq]
  refine ⟨?_, ?_, ?_⟩
  · exact npUint8_eq _ 123 (by norm_num) (by norm_num) (by norm_num)
      (by norm_num) (by norm_num)
  · exact npUint8_eq _ 116 (by norm_num) (by norm_num) (by norm_num)
      (by norm_num) (by norm_num)
  · exact npUint8_eq _ 103 (by norm_num) (by norm_num) (by norm_num)
      (by norm_num) (by norm_num)

theorem postprocess_zero :
    postprocess [QRGB.mk 0 0 0] = [RGB.mk 123 116 103] := by
  unfold postprocess
  rw [List.map_cons, List.map_nil, postprocessPix_zero]

/-- C3: rendering an all-ones perturbation row reproduces the original image
pixel-for-pixel under both strategies: in constant-fill mode no pixel is
occluded, and in inpainting mode the keep mask is identically 1 so the
composite equals the (normalized) pytorch image, whose postprocessing is the
original image. -/
theorem render_all_ones_identity (image fudged : List RGB)
    (pytorch inpainted : List QRGB) (segments : List ℤ) (nf : ℕ)
    (him : image.length = segments.length)
    (hfu : fudged.length = segments.length)
    (hpy : pytorch.length = segments.length)
    (hin : inpainted.length = segments.length)
    (hrep : postprocess pytorch = image) :
    renderLIME image fudged segments (List.replicate nf 1) = image ∧
      renderLIMEG pytorch inpainted segments (List.replicate nf 1) = image := by
  constructor
  · unfold renderLIME
    rw [rowMask_all_ones]
    exact zipWith3_false_mask segments.length fudged image hfu him
  · unfold renderLIMEG keepMask
    rw [rowMask_all_ones, List.map_replicate]
    simp only [if_neg Bool.false_ne_true, sub_zero]
    rw [composite_all_keep segments.length pytorch inpainted hpy hin]
    exact hrep

/-- Witness for C3 at a concrete one-pixel instance (the normalized pytorch
pixel `(0,0,0)` postprocesses to the integer pixel `(123,116,103)`). -/
theorem render_all_ones_identity_witness :
    postprocess [QRGB.mk 0 0 0] = [RGB.mk 123 116 103] ∧
      renderLIME [RGB.mk 123 116 103] [RGB.mk 9 9 9] [5]
          (List.replicate 1 1) = [RGB.mk 123 116 103] ∧
      renderLIMEG [QRGB.mk 0 0 0] [QRGB.mk 7 7 7] [5]
          (List.replicate 1 1) = [RGB.mk 123 116 103] :=
  ⟨postprocess_zero,
    render_all_ones_identity [RGB.mk 123 116 103] [RGB.mk 9 9 9]
      [QRGB.mk 0 0 0] [QRGB.mk 7 7 7] [5] 1 (by decide) (by decide)
      (by decide) (by decide) postprocess_zero⟩

theorem length_zipWith3 {α β γ δ : Type} (f : α → β → γ → δ) :
    ∀ (l1 : List α) (l2 : List β) (l3 : List γ),
      (List.zipWith3 f l1 l2 l3).length =
        min l1.length (min l2.length l3.length) := by
  intro l1
  induction l1 with
  | nil => intro l2 l3; simp [List.zipWith3]
  | cons a l1 ih =>
    intro l2 l3
    cases l2 with
    | nil => simp [List.zipWith3]
    | cons b l2 =>
      cases l3 with
      | nil => simp [List.zipWith3]
      | cons c l3 =>
        simp only [List.zipWith3, List.length_cons, ih]
        omega

theorem giamStep_lengths (image : List RGB) (segments : List ℤ) (mW : ℚ)
    (tm : List RGB × List ℕ) (fw : ℤ × ℚ)
    (him : image.length = segments.length)
    (h1 : tm.1.length = segments.length)
    (h2 : tm.2.length = segments.length) :
    (giamStep image segments mW tm fw).1.length = segments.length ∧
      (giamStep image segments mW tm fw).2.length = segments.length := by
  unfold giamStep
  by_cases hskip : |fw.2| < mW
  · rw [if_pos hskip]
    exact ⟨h1, h2⟩
  · rw [if_neg hskip]
    constructor
    · rw [length_zipWith3, him, h1]
      omega
    · rw [List.length_zipWith, h2]
      omega

theorem giam_foldl_lengths (image : List RGB) (segments : List ℤ) (mW : ℚ)
    (him : image.length = segments.length) :
    ∀ (l : List (ℤ × ℚ)) (tm : List RGB × List ℕ),
      tm.1.length = segments.length → tm.2.length = segments.length →
      ((l.foldl (giamStep image segments mW) tm).1.length = segments.length ∧
        (l.foldl (giamStep image segments mW) tm).2.length =
          segments.length) := by
  intro l
  induction l with
  | nil => intro tm h1 h2; exact ⟨h1, h2⟩
  | cons fw l ih =>
    intro tm h1 h2
    rw [List.foldl_cons]
    obtain ⟨h1', h2'⟩ := giamStep_lengths image segments mW tm fw him h1 h2
    exact ih _ h1' h2'

theorem giamStep_getD_skip (image : List RGB) (segments : List ℤ) (mW : ℚ)
    (tm : List RGB × List ℕ) (fw : ℤ × ℚ) (hskip : |fw.2| < mW) :
    giamStep image segments mW tm fw = tm := by
  unfold giamStep
  rw [if_pos hskip]

theorem giamStep_getD_active (image : List RGB) (segments : List ℤ) (mW : ℚ)
    (tm : List RGB × List ℕ) (fw : ℤ × ℚ) (p : ℕ)
    (hp : p < segments.length) (him : image.length = segments.length)
    (h1 : tm.1.length = segments.length)
    (h2 : tm.2.length = segments.length) (hskip : ¬|fw.2| < mW) :
    (giamStep image segments mW tm fw).1.getD p (RGB.mk 0 0 0) =
      (if segments.getD p 0 = fw.1 then
        setChan (image.getD p (RGB.mk 0 0 0)) (if fw.2 < 0 then 0 else 1)
          (imgMax image)
      else tm.1.getD p (RGB.mk 0 0 0)) ∧
      (giamStep image segments mW tm fw).2.getD p 0 =
        (if segments.getD p 0 = fw.1 then (if fw.2 < 0 then 1 else 2)
        else tm.2.getD p 0) := by
  unfold giamStep
  rw [if_neg hskip]
  constructor
  · exact getD_zipWith3 _ segments image tm.1 p 0 (RGB.mk 0 0 0)
      (RGB.mk 0 0 0) (RGB.mk 0 0 0) hp (him ▸ hp) (h1 ▸ hp)
  · exact getD_zipWith _ segments tm.2 p 0 0 0 hp (h2 ▸ hp)

theorem giam_foldl_char (image : List RGB) (segments : List ℤ) (mW : ℚ)
    (p : ℕ) (hp : p < segments.length)
    (him : image.length = segments.length) (l : List (ℤ × ℚ)) :
    ∀ (tm : List RGB × List ℕ), tm.1.length = segments.length →
      tm.2.length = segments.length →
      ((lastHit l mW (segments.getD p 0) = none →
          (l.foldl (giamStep image segments mW) tm).1.getD p (RGB.mk 0 0 0) =
              tm.1.getD p (RGB.mk 0 0 0) ∧
            (l.foldl (giamStep image segments mW) tm).2.getD p 0 =
              tm.2.getD p 0) ∧
        ∀ f w, lastHit l mW (segments.getD p 0) = some (f, w) →
          (l.foldl (giamStep image segments mW) tm).1.getD p (RGB.mk 0 0 0) =
              setChan (image.getD p (RGB.mk 0 0 0)) (if w < 0 then 0 else 1)
                (imgMax image) ∧
            (l.foldl (giamStep image segments mW) tm).2.getD p 0 =
              (if w < 0 then 1 else 2)) := by
  induction l using List.reverseRecOn with
  | nil =>
    intro tm _ _
    constructor
    · intro _
      exact ⟨rfl, rfl⟩
    · intro f w hsome
      simp [lastHit] at hsome
  | append_singleton l x ihl =>
    intro tm h1 h2
    have hprev := giam_foldl_lengths image segments mW him l tm h1 h2
    have hfold : ((l ++ [x]).foldl (giamStep image segments mW) tm) =
        giamStep image segments mW (l.foldl (giamStep image segments mW) tm)
          x := by
      rw [List.foldl_append, List.foldl_cons, List.foldl_nil]
    by_cases hpass :
        (!decide (|x.2| < mW) && decide (x.1 = segments.getD p 0)) = true
    · have hlast : lastHit (l ++ [x]) mW (segments.getD p 0) = some x := by
        unfold lastHit
        rw [List.filter_append]
        have : List.filter
            (fun fw => !decide (|fw.2| < mW) &&
              decide (fw.1 = segments.getD p 0)) [x] = [x] := by
          rw [List.filter_cons, if_pos hpass, List.filter_nil]
        rw [this, List.getLast?_append_cons]
        rfl
      simp only [Bool.and_eq_true, Bool.not_eq_eq_eq_not, Bool.not_true,
        decide_eq_false_iff_not, decide_eq_true_eq] at hpass
      obtain ⟨hskip, hseg⟩ := hpass
      obtain ⟨ha1, ha2⟩ := giamStep_getD_active image segments mW
        (l.foldl (giamStep image segments mW) tm) x p hp him hprev.1 hprev.2
        hskip
      rw [if_pos hseg.symm] at ha1 ha2
      constructor
      · intro hnone
        rw [hlast] at hnone
        exact absurd hnone (by simp)
      · intro f w hsome
        rw [hlast, Option.some.injEq] at hsome
        subst hsome
        rw [hfold, ha1, ha2]
        exact ⟨rfl, rfl⟩
    · have hlast : lastHit (l ++ [x]) mW (segments.getD p 0) =
          lastHit l mW (segments.getD p 0) := by
        unfold lastHit
        rw [List.filter_append]
        have : List.filter
            (fun fw => !decide (|fw.2| < mW) &&
              decide (fw.1 = segments.getD p 0)) [x] = [] := by
          rw [List.filter_cons, if_neg hpass, List.filter_nil]
        rw [this, List.append_nil]
      have hkeep :
          (giamStep image segments mW
              (l.foldl (giamStep image segments mW) tm) x).1.getD p
                (RGB.mk 0 0 0) =
              (l.foldl (giamStep image segments mW) tm).1.getD p
                (RGB.mk 0 0 0) ∧
            (giamStep image segments mW
              (l.foldl (giamStep image segments mW) tm) x).2.getD p 0 =
              (l.foldl (giamStep image segments mW) tm).2.getD p 0 := by
        by_cases hskip : |x.2| < mW
        · rw [giamStep_getD_skip image segments mW _ x hskip]
          exact ⟨rfl, rfl⟩
        · obtain ⟨ha1, ha2⟩ := giamStep_getD_active image segments mW
            (l.foldl (giamStep image segments mW) tm) x p hp him hprev.1
            hprev.2 hskip
          have hneq : segments.getD p 0 ≠ x.1 := by
            intro heq
            apply hpass
            simp [hskip, heq.symm]
          rw [if_neg hneq] at ha1 ha2
          exact ⟨ha1, ha2⟩
      obtain ⟨ih1, ih2⟩ := ihl tm h1 h2
      constructor
      · intro hnone
        rw [hlast] at hnone
        obtain ⟨e1, e2⟩ := ih1 hnone
        rw [hfold, hkeep.1, hkeep.2, e1, e2]
        exact ⟨rfl, rfl⟩
      · intro f w hsome
        rw [hlast] at hsome
        obtain ⟨e1, e2⟩ := ih2 f w hsome
        rw [hfold, hkeep.1, hkeep.2, e1, e2]
        exact ⟨rfl, rfl⟩

theorem giamBase_length (image : List RGB) (hideRest : Bool) :
    (giamBase image hideRest).length = image.length := by
  unfold giamBase
  cases hideRest <;> simp

/-- C4 counterexample: at a one-pixel image with maximum channel value 3 and
a single positively weighted superpixel, the red channel (channel 0) of the
highlighted pixel is left at its original value 1 and is NOT saturated to
the image's global maximum — the code saturates channel 1 for positive
weights, not the red channel as the claim states. -/
theorem getImageAndMaskNeg_red_channel_counterexample :
    ((getImageAndMaskNeg [RGB.mk 1 2 3] [0] [(0, 1)] 5 0 false).1.getD 0
        (RGB.mk 0 0 0)).r ≠ imgMax [RGB.mk 1 2 3] := by
  decide

/-- C4 (amended): with `positive_only=False`, `get_image_and_mask` walks the
top `num_features` explanation entries in order, skips entries whose
absolute weight is below `min_weight`, and the last non-skipped entry
covering a pixel's superpixel determines that pixel: mask value 2 and
saturation of channel 1 to the image's global maximum for nonnegative
weight, mask value 1 and saturation of channel 0 for negative weight; an
uncovered pixel keeps the base image value and mask 0. -/
theorem getImageAndMaskNeg_characterization (image : List RGB)
    (segments : List ℤ) (exp : List (ℤ × ℚ)) (numFeatures : ℕ)
    (minWeight : ℚ) (hideRest : Bool) (p : ℕ) (hp : p < segments.length)
    (him : image.length = segments.length) :
    ((lastHit (exp.take numFeatures) minWeight (segments.getD p 0) = none →
        (getImageAndMaskNeg image segments exp numFeatures minWeight
              hideRest).1.getD p (RGB.mk 0 0 0) =
            (giamBase image hideRest).getD p (RGB.mk 0 0 0) ∧
          (getImageAndMaskNeg image segments exp numFeatures minWeight
              hideRest).2.getD p 0 = 0) ∧
      ∀ f w,
        lastHit (exp.take numFeatures) minWeight (segments.getD p 0) =
            some (f, w) →
          (getImageAndMaskNeg image segments exp numFeatures minWeight
                hideRest).1.getD p (RGB.mk 0 0 0) =
              setChan (image.getD p (RGB.mk 0 0 0))
                (if w < 0 then 0 else 1) (imgMax image) ∧
            (getImageAndMaskNeg image segments exp numFeatures minWeight
                hideRest).2.getD p 0 = (if w < 0 then 1 else 2)) := by
  have hchar := giam_foldl_char image segments minWeight p hp him
    (exp.take numFeatures)
    (giamBase image hideRest, List.replicate segments.length 0)
    (by rw [giamBase_length, him]) (by rw [List.length_replicate])
  unfold getImageAndMaskNeg
  constructor
  · intro hnone
    obtain ⟨e1, e2⟩ := hchar.1 hnone
    rw [e1, e2]
    exact ⟨rfl, getD_replicate_self 0 segments.length p⟩
  · exact hchar.2

/-- Witness for C4's amended characterization at a one-pixel image with a
single positively weighted superpixel. -/
theorem getImageAndMaskNeg_characterization_witness :
    0 < ([0] : List ℤ).length ∧
      ([RGB.mk 1 2 3] : List RGB).length = ([0] : List ℤ).length ∧
      ((lastHit ([((0 : ℤ), (1 : ℚ))].take 5) 0 (([0] : List ℤ).getD 0 0) =
            none →
          (getImageAndMaskNeg [RGB.mk 1 2 3] [0] [(0, 1)] 5 0 false).1.getD 0
              (RGB.mk 0 0 0) =
              (giamBase [RGB.mk 1 2 3] false).getD 0 (RGB.mk 0 0 0) ∧
            (getImageAndMaskNeg [RGB.mk 1 2 3] [0] [(0, 1)] 5 0
                false).2.getD 0 0 = 0) ∧
        ∀ f w,
          lastHit ([((0 : ℤ), (1 : ℚ))].take 5) 0 (([0] : List ℤ).getD 0 0) =
              some (f, w) →
            (getImageAndMaskNeg [RGB.mk 1 2 3] [0] [(0, 1)] 5 0
                  false).1.getD 0 (RGB.mk 0 0 0) =
                setChan (([RGB.mk 1 2 3] : List RGB).getD 0 (RGB.mk 0 0 0))
                  (if w < 0 then 0 else 1) (imgMax [RGB.mk 1 2 3]) ∧
              (getImageAndMaskNeg [RGB.mk 1 2 3] [0] [(0, 1)] 5 0
                  false).2.getD 0 0 = (if w < 0 then 1 else 2)) :=
  ⟨by decide, by decide,
    getImageAndMaskNeg_characterization [RGB.mk 1 2 3] [0] [(0, 1)] 5 0 false
      0 (by decide) (by decide)⟩

theorem keepMask_single_one : keepMask [0] [1] = [(1 : ℚ)] := by
  have h : rowMask [0] [1] = [false] := by decide
  unfold keepMask
  rw [h]
  simp

theorem keepMask_single_zero : keepMask [0] [0] = [(0 : ℚ)] := by
  have h : rowMask [0] [0] = [true] := by decide
  unfold keepMask
  rw [h]
  simp

theorem composite_zero_pixel (k : ℚ) :
    composite [QRGB.mk 0 0 0] [QRGB.mk 0 0 0] [k] = [QRGB.mk 0 0 0] := by
  unfold composite
  simp [List.zipWith3]

theorem flushLIMEG_single (m : List ℚ) :
    flushLIMEG clfC pytC inpC [m] =
      [clfC (postprocess (composite pytC (inpC m) m))] := by
  unfold flushLIMEG
  rw [List.map_cons, List.map_nil]

theorem clfC_postprocess_zero : clfC (postprocess [QRGB.mk 0 0 0]) = [123] := by
  rw [postprocess_zero]
  unfold clfC
  norm_num

/-- C1 fails on the code: in inpainting mode ('LIMEG'), the final partial
batch (lines 317–319) is classified on the accumulated raw copies of the
original image, bypassing both occlusion and inpainting.  At a one-pixel
image with `num_samples = 2`, `batch_size = 7` leaves both rows in the
partial batch and predicts the original image's value 7 for every row, while
`batch_size = 1` runs each row through the inpainting pipeline and predicts
123 — the prediction matrices differ between batch sizes, contradicting
batch-size invariance (both still have `num_samples` rows). -/
theorem driveLIMEG_partial_batch_bypasses_inpainting :
    driveLIMEG clfC imgC pytC inpC [0] 7 [[1], [0]] [] [] = [[7], [7]] ∧
      driveLIMEG clfC imgC pytC inpC [0] 1 [[1], [0]] [] [] =
        [[123], [123]] ∧
      clfC imgC = [7] ∧
      driveLIMEG clfC imgC pytC inpC [0] 1 [[1], [0]] [] [] ≠
        driveLIMEG clfC imgC pytC inpC [0] 7 [[1], [0]] [] [] := by
  have h7 : driveLIMEG clfC imgC pytC inpC [0] 7 [[1], [0]] [] [] =
      [[7], [7]] := by
    simp only [driveLIMEG]
    norm_num [flushBatch, clfC, imgC]
  have h1 : driveLIMEG clfC imgC pytC inpC [0] 1 [[1], [0]] [] [] =
      [[123], [123]] := by
    simp only [driveLIMEG, List.nil_append, List.length_cons,
      List.length_nil, if_true, List.isEmpty_nil]
    rw [keepMask_single_one, keepMask_single_zero, flushLIMEG_single,
      flushLIMEG_single]
    show [clfC (postprocess (composite pytC (inpC [1]) [1]))] ++
        ([clfC (postprocess (composite pytC (inpC [0]) [0]))] ++ []) = _
    have hc1 : composite pytC (inpC [1]) [1] = [QRGB.mk 0 0 0] :=
      composite_zero_pixel 1
    have hc0 : composite pytC (inpC [0]) [0] = [QRGB.mk 0 0 0] :=
      composite_zero_pixel 0
    rw [hc1, hc0, clfC_postprocess_zero]
    rfl
  refine ⟨h7, h1, ?_, ?_⟩
  · norm_num [clfC, imgC]
  · rw [h7, h1]
    intro h
    have := List.head_eq_of_cons_eq h
    have : (123 : ℚ) = 7 := List.head_eq_of_cons_eq this
    norm_num at this

end LimeImage
